import Mathlib

/-!
Verification development for SiteTreeGen (src/sitetreegen.py).

The embedding below translates the three core components of the program
into executable Lean definitions:

* the path extractor `extract_urls` (regex scan plus noise filter),
* the crawler `crawl` (depth-bounded recursive traversal with a visited
  set, origin filtering, and a directory set), and
* the tree builder `get_directory_tree` (insertion of slash-separated
  paths into a rooted named-node tree).

External collaborators (HTTP fetching, HTML parsing, URL resolution) are
modelled as data: a web is a function from URLs to fetch results, where
the result of a successful fetch carries the serialized page text and the
already-resolved absolute link URLs of the page.
-/

namespace SiteTreeGen

/-- A parsed URL, as produced by urlparse: scheme, netloc (host) and path.
Only these three components are consulted by the program. -/
structure Url where
  scheme : String
  netloc : String
  path : String
deriving DecidableEq

/-- Result of requests.get: a transport error (exception), or a response
with a status code, the serialized page text (soup.prettify()), and the
page's hyperlinks already resolved to absolute URLs (urljoin). -/
inductive FetchResult where
  | err : FetchResult
  | resp (status : Nat) (content : String) (links : List Url) : FetchResult
deriving DecidableEq

/-- The mutable state of a WebCrawler instance: the visited set and the
directory set, both kept as insertion-ordered duplicate-free lists.
`fetchLog` is an observation trace recording each URL at the moment a GET
request is issued for it (it is not part of the Python state; it lets us
state how many times a URL is fetched). -/
structure CrawlState where
  visited : List Url
  directories : List String
  fetchLog : List Url
deriving DecidableEq

/-! ### Path extractor (extract_urls, source lines 52-62) -/

/-- One character of the regex class [a-zA-Z0-9_-]. -/
def isWordChar (c : Char) : Bool :=
  c.isAlphanum || c = '_' || c = '-'

/-- Greedy match of the regex tail (?:[a-zA-Z0-9_-]+/?)+ at the head of
the character list: one or more word-character runs, each optionally
followed by a single slash.  Returns the matched characters ([] when the
head is not a word character, i.e. no match).  `fuel` bounds the
iteration count; any fuel at least the list length is enough. -/
def matchBody : Nat → List Char → List Char
  | 0, _ => []
  | fuel + 1, cs =>
    let w := cs.takeWhile isWordChar
    if w.isEmpty then []
    else
      match cs.dropWhile isWordChar with
      | '/' :: rest2 =>
        let more := matchBody fuel rest2
        if more.isEmpty then w ++ ['/'] else w ++ '/' :: more
      | _ => w

/-- re.findall for the pattern /(?:[a-zA-Z0-9_-]+/?)+ : scan left to
right, at each slash try the greedy body match, emit non-overlapping
maximal matches and resume after each match. -/
def findAll : Nat → List Char → List (List Char)
  | 0, _ => []
  | _ + 1, [] => []
  | fuel + 1, c :: cs =>
    if c = '/' then
      let body := matchBody cs.length cs
      if body.isEmpty then findAll fuel cs
      else ('/' :: body) :: findAll fuel (cs.drop body.length)
    else findAll fuel cs

/-- Does `pat` occur at the head of the list? -/
def startsWith : List Char → List Char → Bool
  | [], _ => true
  | _ :: _, [] => false
  | p :: ps, c :: cs => p == c && startsWith ps cs

/-- Does `pat` occur anywhere in the list (re.search with a literal)? -/
def containsSub (pat : List Char) : List Char → Bool
  | [] => startsWith pat []
  | c :: cs => startsWith pat (c :: cs) || containsSub pat cs

/-- The filter regex @|\d+$|/VUMChealth of extract_urls: an @ anywhere,
a trailing decimal digit, or the literal /VUMChealth anywhere. -/
def badSearch (u : List Char) : Bool :=
  u.any (fun c => c == '@') ||
  (match u.getLast? with
   | some c => c.isDigit
   | none => false) ||
  containsSub "/VUMChealth".data u

/-- extract_urls (source lines 52-62): find all path-shaped substrings,
then keep those the filter regex does not match. -/
def extract_urls (content : String) : List String :=
  let all_urls := findAll content.data.length content.data
  (all_urls.filter (fun u => !(badSearch u))).map (fun l => String.mk l)

/-! ### Directory set and crawl (crawl, source lines 16-50) -/

/-- self.directories.update(xs): add each new string to the set, keeping
insertion order and ignoring strings already present. -/
def dirUnion (acc : List String) (xs : List String) : List String :=
  xs.foldl (fun a u => if u ∈ a then a else a ++ [u]) acc

/-- crawl (source lines 16-50).  Checks, in order: the depth ceiling
(depth > max_depth), the visited set, then marks the URL visited and
issues the GET (recorded in fetchLog).  A transport error or a status
other than 200 ends the call there.  On a 200 response the page text is
run through extract_urls into the directory set, the page's links are
filtered to those whose netloc equals the base URL's netloc, and each
surviving link is crawled at depth + 1.  The extra `fuel` argument makes
the recursion structural; every run below starts with fuel = maxDepth + 1,
which the depth guard keeps from ever reaching 0 (fuel + depth stays at
maxDepth + 2 and a call at depth maxDepth + 1 returns at once). -/
def crawl (web : Url → FetchResult) (base : Url) (maxDepth : Nat) :
    Nat → Url → Nat → CrawlState → CrawlState
  | 0, _, _, s => s
  | fuel + 1, url, depth, s =>
    if depth > maxDepth then s
    else if url ∈ s.visited then s
    else
      match web url with
      | FetchResult.err =>
          ⟨s.visited ++ [url], s.directories, s.fetchLog ++ [url]⟩
      | FetchResult.resp status content links =>
          if status ≠ 200 then
            ⟨s.visited ++ [url], s.directories, s.fetchLog ++ [url]⟩
          else
            if (links.filter (fun l => l.netloc == base.netloc)).isEmpty then
              ⟨s.visited ++ [url], dirUnion s.directories (extract_urls content),
               s.fetchLog ++ [url]⟩
            else
              (links.filter (fun l => l.netloc == base.netloc)).foldl
                (fun a l => crawl web base maxDepth fuel l (depth + 1) a)
                ⟨s.visited ++ [url], dirUnion s.directories (extract_urls content),
                 s.fetchLog ++ [url]⟩

/-- A whole crawler run: WebCrawler(base, maxDepth) followed by
crawler.crawl(url), i.e. a crawl from `url` at starting depth 1 with
empty visited and directory sets. -/
def crawlTop (web : Url → FetchResult) (base : Url) (maxDepth : Nat) (url : Url) :
    CrawlState :=
  crawl web base maxDepth (maxDepth + 1) url 1 ⟨[], [], []⟩

/-! ### Tree builder (get_directory_tree, source lines 70-84) -/

/-- Python "x".split("/") on character lists: split at every slash,
keeping empty chunks (so splitting the empty list gives one empty
chunk, like "".split("/") == [""]). -/
def splitSlash : List Char → List (List Char)
  | [] => [[]]
  | c :: cs =>
    if c = '/' then [] :: splitSlash cs
    else
      match splitSlash cs with
      | [] => [[c]]
      | s :: rest => (c :: s) :: rest

/-- Remove trailing slashes. -/
def stripTrail (l : List Char) : List Char :=
  (l.reverse.dropWhile (fun c => c == '/')).reverse

/-- Python "x".strip("/"): remove leading and trailing slashes. -/
def stripSlash (cs : List Char) : List Char :=
  stripTrail (cs.dropWhile (fun c => c == '/'))

/-- One step of the tree-building loop body (source lines 79-82).  The
state is the path_nodes dict — represented as the list of created nodes
in creation order, each as (name, parent name) — together with the name
of current_node ("/" is the root).  Node lookup is keyed by the segment
name alone, exactly as the single path_nodes dict in the source is: a
node is created only if no node of that name exists anywhere in the tree,
and current_node then becomes the unique node of that name. -/
def insertPart (st : List (String × String) × String) (part : String) :
    List (String × String) × String :=
  if part ∈ st.1.map Prod.fst then (st.1, part)
  else (st.1 ++ [(part, st.2)], part)

/-- Processing of one directory string (source lines 76-82): strip
slashes, split on slashes, and walk/insert segment by segment starting
from the root. -/
def addPath (ns : List (String × String)) (directory : String) :
    List (String × String) :=
  ((splitSlash (stripSlash directory.data)).map (fun l => String.mk l)).foldl
    insertPart (ns, "/") |>.1

/-- get_directory_tree (source lines 70-84) over a given iteration order
of the directory set: fold every directory string into the node list.
The implicit root is named "/" and is not an element of the list. -/
def get_directory_tree (dirs : List String) : List (String × String) :=
  dirs.foldl addPath []

/-! ### CLI surface (parse_arguments, source lines 109-113) -/

/-- One command-line option: its long flag name, whether it is required,
whether it takes a value, and its integer default if any. -/
structure CliOpt where
  name : String
  required : Bool
  takesValue : Bool
  intDefault : Option Nat
deriving DecidableEq

/-- An entry point's argument surface: positional argument names and
option flags. -/
structure CliSurface where
  positionals : List String
  options : List CliOpt
deriving DecidableEq

/-- parse_arguments (source lines 109-113): the crawl-mode surface, a
required positional url and an optional --depth integer flag with
default 3. -/
def parse_arguments : CliSurface :=
  ⟨["url"], [⟨"--depth", false, true, some 3⟩]⟩

/-- Modelled from the spec: the tree-from-file entry point is code of
this repository that is not under src/ (src holds only sitetreegen.py,
the crawl-mode script); per the spec's CLI-surface section it takes a
required --input path flag, an optional --output path flag, and an
optional boolean --verbose flag that prints the tree to standard
output. -/
def tree_file_arguments : CliSurface :=
  ⟨[], [⟨"--input", true, true, none⟩,
        ⟨"--output", false, true, none⟩,
        ⟨"--verbose", false, false, none⟩]⟩

end SiteTreeGen

namespace SiteTreeGen

/-! ### Theorems: tree builder -/

/-- Every name present in the node list stays present through the
segment-insertion fold, and every processed segment name is present
afterwards. -/
theorem foldlInsert_names (parts : List String) :
    ∀ (ns : List (String × String)) (c : String),
      (∀ q ∈ ns.map Prod.fst, q ∈ ((parts.foldl insertPart (ns, c)).1).map Prod.fst) ∧
      ∀ p ∈ parts, p ∈ ((parts.foldl insertPart (ns, c)).1).map Prod.fst := by
  induction parts with
  | nil =>
    intro ns c
    constructor
    · intro q hq; simpa using hq
    · intro p hp; cases hp
  | cons p ps ih =>
    intro ns c
    rw [List.foldl_cons]
    by_cases hp : p ∈ ns.map Prod.fst
    · have he : insertPart (ns, c) p = (ns, p) := by simp [insertPart, hp]
      rw [he]
      refine ⟨(ih ns p).1, ?_⟩
      intro q hq
      rcases List.mem_cons.mp hq with h | h
      · rw [h]; exact (ih ns p).1 p hp
      · exact (ih ns p).2 q h
    · have he : insertPart (ns, c) p = (ns ++ [(p, c)], p) := by simp [insertPart, hp]
      rw [he]
      have hmono : ∀ q ∈ ns.map Prod.fst, q ∈ (ns ++ [(p, c)]).map Prod.fst := by
        intro q hq
        simp only [List.map_append, List.mem_append]
        exact Or.inl hq
      refine ⟨fun q hq => (ih (ns ++ [(p, c)]) p).1 q (hmono q hq), ?_⟩
      intro q hq
      rcases List.mem_cons.mp hq with h | h
      · rw [h]
        refine (ih (ns ++ [(p, c)]) p).1 p ?_
        simp [List.map_append]
      · exact (ih (ns ++ [(p, c)]) p).2 q h

/-- If every segment name is already present, the insertion fold creates
no node. -/
theorem foldlInsert_id (parts : List String) :
    ∀ (ns : List (String × String)) (c : String),
      (∀ p ∈ parts, p ∈ ns.map Prod.fst) →
      (parts.foldl insertPart (ns, c)).1 = ns := by
  induction parts with
  | nil => intro ns c _; rfl
  | cons p ps ih =>
    intro ns c h
    rw [List.foldl_cons]
    have hp : p ∈ ns.map Prod.fst := h p (List.mem_cons_self p ps)
    have he : insertPart (ns, c) p = (ns, p) := by simp [insertPart, hp]
    rw [he]
    exact ih ns p (fun q hq => h q (List.mem_cons_of_mem p hq))

/-- Claim C9: tree insertion is idempotent — adding the same directory
path twice to any node list yields exactly the node list obtained by
adding it once; the second insertion creates no node. -/
theorem c9_add_path_idempotent (ns : List (String × String)) (p : String) :
    addPath (addPath ns p) p = addPath ns p := by
  simp only [addPath]
  apply foldlInsert_id
  intro q hq
  exact (foldlInsert_names ((splitSlash (stripSlash p.data)).map (fun l => String.mk l))
    ns "/").2 q hq

/-- Claim C1: tree building is NOT keyed per parent.  Building from the
directory strings /a/b and /x/b creates a single node named b — under a —
because the lookup dict path_nodes is keyed by segment name globally; the
node x gets no child named b, contrary to the claim. -/
theorem c1_tree_not_keyed_per_parent :
    get_directory_tree ["/a/b", "/x/b"] = [("a", "/"), ("b", "a"), ("x", "/")] ∧
    ("b", "x") ∉ get_directory_tree ["/a/b", "/x/b"] ∧
    get_directory_tree ["/a/b", "/a/c"] = [("a", "/"), ("b", "a"), ("c", "a")] := by
  refine ⟨by decide, by decide, by decide⟩

/-- Claim C4: a bare separator is NOT a no-op.  Python's "".split("/")
is [""], so building from the directory string "/" creates one node with
the empty name under the root instead of creating nothing. -/
theorem c4_bare_separator_creates_empty_node :
    get_directory_tree ["/"] = [("", "/")] := by decide

/-! ### Theorems: CLI surface -/

/-- Claim C5: the tree-from-file entry point (modelled from the spec; its
script is not under src/) accepts a required --input value flag, an
optional --output value flag and an optional boolean --verbose flag, and
its surface is distinct from the crawl-mode surface of parse_arguments,
which has the positional url and the optional --depth flag with integer
default 3. -/
theorem c5_cli_two_entry_points :
    (⟨"--input", true, true, none⟩ : CliOpt) ∈ tree_file_arguments.options ∧
    (⟨"--output", false, true, none⟩ : CliOpt) ∈ tree_file_arguments.options ∧
    (⟨"--verbose", false, false, none⟩ : CliOpt) ∈ tree_file_arguments.options ∧
    tree_file_arguments.positionals = [] ∧
    parse_arguments.positionals = ["url"] ∧
    (⟨"--depth", false, true, some 3⟩ : CliOpt) ∈ parse_arguments.options ∧
    tree_file_arguments ≠ parse_arguments := by decide

/-! ### Theorems: path extractor filtering -/

/-- Claim C8: on a text containing /contact-us, user@example.com,
/items/42 and /assets/logo the surviving candidates are exactly
/contact-us and /assets/logo; and in general no string on which the
filter regex fires (an @, a trailing digit, or the denylist literal)
survives extraction. -/
theorem c8_extraction_filtering :
    extract_urls "/contact-us user@example.com /items/42 /assets/logo"
      = ["/contact-us", "/assets/logo"] ∧
    ∀ content u, u ∈ extract_urls content → badSearch u.data = false := by
  constructor
  · decide
  · intro content u hu
    rw [extract_urls] at hu
    rcases List.mem_map.mp hu with ⟨l, hl, rfl⟩
    have := (List.mem_filter.mp hl).2
    simpa using this

/-- Witness for c8_extraction_filtering at a concrete input. -/
theorem c8_extraction_filtering_witness :
    badSearch "/contact-us".data = false :=
  c8_extraction_filtering.2 "/contact-us user@example.com /items/42 /assets/logo"
    "/contact-us" (by decide)

end SiteTreeGen

namespace SiteTreeGen

/-! ### Crawl invariants -/

/-- Preservation scheme for crawl: any state predicate P stable under
the visit-and-log step and under directory union, assuming every crawled
URL satisfies Q (links pass the netloc filter, so they satisfy Q), holds
after any crawl from a state satisfying it. -/
theorem crawl_preserve (web : Url → FetchResult) (base : Url) (maxD : Nat)
    (P : CrawlState → Prop) (Q : Url → Prop)
    (hstep : ∀ s u, P s → Q u → u ∉ s.visited →
      P ⟨s.visited ++ [u], s.directories, s.fetchLog ++ [u]⟩)
    (hdirs : ∀ s c, P s → P ⟨s.visited, dirUnion s.directories c, s.fetchLog⟩)
    (hQ : ∀ l : Url, l.netloc = base.netloc → Q l) :
    ∀ fuel url depth s, Q url → P s →
      P (crawl web base maxD fuel url depth s) := by
  intro fuel
  induction fuel with
  | zero => intro url depth s _ hp; simpa [crawl] using hp
  | succ fuel ih =>
    intro url depth s hq hp
    by_cases hd : depth > maxD
    · simp only [crawl, if_pos hd]; exact hp
    by_cases hv : url ∈ s.visited
    · simp only [crawl, if_neg hd, if_pos hv]; exact hp
    simp only [crawl, if_neg hd, if_neg hv]
    have hstep1 : P ⟨s.visited ++ [url], s.directories, s.fetchLog ++ [url]⟩ :=
      hstep s url hp hq hv
    have haux : ∀ (ls : List Url), (∀ l ∈ ls, Q l) → ∀ (s2 : CrawlState), P s2 →
        P (ls.foldl (fun a l => crawl web base maxD fuel l (depth + 1) a) s2) := by
      intro ls
      induction ls with
      | nil => intro _ s2 hp2; exact hp2
      | cons l ls ihl =>
        intro hql s2 hp2
        rw [List.foldl_cons]
        exact ihl (fun x hx => hql x (List.mem_cons_of_mem l hx)) _
          (ih l (depth + 1) s2 (hql l (List.mem_cons_self l ls)) hp2)
    split
    · exact hstep1
    · rename_i status content links heq
      by_cases hs : status ≠ 200
      · rw [if_pos hs]; exact hstep1
      rw [if_neg hs]
      have hstep2 : P ⟨s.visited ++ [url],
          dirUnion s.directories (extract_urls content), s.fetchLog ++ [url]⟩ :=
        hdirs ⟨s.visited ++ [url], s.directories, s.fetchLog ++ [url]⟩
          (extract_urls content) hstep1
      by_cases hemp : (links.filter (fun l => l.netloc == base.netloc)).isEmpty
      · rw [if_pos hemp]; exact hstep2
      rw [if_neg hemp]
      refine haux _ ?_ _ hstep2
      intro l hl
      refine hQ l ?_
      have := (List.mem_filter.mp hl).2
      simpa using this

end SiteTreeGen

namespace SiteTreeGen

/-- A URL present in the visited set stays in it through any crawl: the
visited mark is never removed. -/
theorem crawl_mem_visited (web : Url → FetchResult) (base : Url) (maxD : Nat)
    (v : Url) : ∀ fuel url depth s, v ∈ s.visited →
    v ∈ (crawl web base maxD fuel url depth s).visited := by
  intro fuel url depth s hv
  refine crawl_preserve web base maxD (fun s => v ∈ s.visited) (fun _ => True)
    ?_ ?_ ?_ fuel url depth s trivial hv
  · intro s u hp _ _; exact List.mem_append_left _ hp
  · intro s c hp; exact hp
  · intro _ _; trivial

/-- Visited membership survives the crawl of a whole link list. -/
theorem crawl_foldl_mem_visited (web : Url → FetchResult) (base : Url)
    (maxD : Nat) (v : Url) (fuel d : Nat) :
    ∀ (ls : List Url) (s : CrawlState), v ∈ s.visited →
      v ∈ (ls.foldl (fun a l => crawl web base maxD fuel l d a) s).visited := by
  intro ls
  induction ls with
  | nil => intro s h; exact h
  | cons l ls ih =>
    intro s h
    rw [List.foldl_cons]
    exact ih _ (crawl_mem_visited web base maxD v fuel l d s h)

/-- A string present in the directory set stays in it through any crawl. -/
theorem mem_dirUnion_left (x : String) :
    ∀ (xs acc : List String), x ∈ acc → x ∈ dirUnion acc xs := by
  intro xs
  induction xs with
  | nil => intro acc h; exact h
  | cons u us ih =>
    intro acc h
    show x ∈ dirUnion (if u ∈ acc then acc else acc ++ [u]) us
    apply ih
    by_cases hu : u ∈ acc
    · rw [if_pos hu]; exact h
    · rw [if_neg hu]; exact List.mem_append_left _ h

/-- Everything unioned into the directory set is in the union. -/
theorem mem_dirUnion_right (x : String) :
    ∀ (xs acc : List String), x ∈ xs → x ∈ dirUnion acc xs := by
  intro xs
  induction xs with
  | nil => intro acc h; cases h
  | cons u us ih =>
    intro acc h
    show x ∈ dirUnion (if u ∈ acc then acc else acc ++ [u]) us
    rcases List.mem_cons.mp h with h | h
    · apply mem_dirUnion_left
      by_cases hu : u ∈ acc
      · rw [if_pos hu, h]; exact hu
      · rw [if_neg hu, h]; exact List.mem_append_right _ (by simp)
    · exact ih _ h

/-- A directory already collected is never dropped by a crawl. -/
theorem crawl_mem_dirs (web : Url → FetchResult) (base : Url) (maxD : Nat)
    (x : String) : ∀ fuel url depth s, x ∈ s.directories →
    x ∈ (crawl web base maxD fuel url depth s).directories := by
  intro fuel url depth s hx
  refine crawl_preserve web base maxD (fun s => x ∈ s.directories) (fun _ => True)
    ?_ ?_ ?_ fuel url depth s trivial hx
  · intro s u hp _ _; exact hp
  · intro s c hp; exact mem_dirUnion_left x c s.directories hp
  · intro _ _; trivial

/-- Directory membership survives the crawl of a whole link list. -/
theorem crawl_foldl_mem_dirs (web : Url → FetchResult) (base : Url)
    (maxD : Nat) (x : String) (fuel d : Nat) :
    ∀ (ls : List Url) (s : CrawlState), x ∈ s.directories →
      x ∈ (ls.foldl (fun a l => crawl web base maxD fuel l d a) s).directories := by
  intro ls
  induction ls with
  | nil => intro s h; exact h
  | cons l ls ih =>
    intro s h
    rw [List.foldl_cons]
    exact ih _ (crawl_mem_dirs web base maxD x fuel l d s h)

/-- A crawl whose depth is within the ceiling puts its own URL into the
visited set (it was either already there or is marked before the GET). -/
theorem crawl_visits_self (web : Url → FetchResult) (base : Url) (maxD : Nat)
    (fuel depth : Nat) (url : Url) (s : CrawlState) (hd : depth ≤ maxD) :
    url ∈ (crawl web base maxD (fuel + 1) url depth s).visited := by
  simp only [crawl, if_neg (Nat.not_lt.mpr hd)]
  by_cases hv : url ∈ s.visited
  · rw [if_pos hv]; exact hv
  rw [if_neg hv]
  split
  · simp
  · rename_i status content links heq
    by_cases hs : status ≠ 200
    · rw [if_pos hs]; simp
    rw [if_neg hs]
    by_cases hemp : (links.filter (fun l => l.netloc == base.netloc)).isEmpty
    · rw [if_pos hemp]; simp
    rw [if_neg hemp]
    exact crawl_foldl_mem_visited web base maxD url fuel (depth + 1) _ _ (by simp)

/-- Crawling a list of links within the depth ceiling marks each of them
visited. -/
theorem crawl_foldl_visits (web : Url → FetchResult) (base : Url) (maxD : Nat)
    (fuel d : Nat) (hd : d ≤ maxD) :
    ∀ (ls : List Url) (s : CrawlState) (l : Url), l ∈ ls →
      l ∈ (ls.foldl (fun a u => crawl web base maxD (fuel + 1) u d a) s).visited := by
  intro ls
  induction ls with
  | nil => intro s l h; cases h
  | cons u us ih =>
    intro s l h
    rw [List.foldl_cons]
    rcases List.mem_cons.mp h with h | h
    · refine crawl_foldl_mem_visited web base maxD l (fuel + 1) d us _ ?_
      rw [h]
      exact crawl_visits_self web base maxD fuel d u s hd
    · exact ih _ l h

end SiteTreeGen

namespace SiteTreeGen

/-! ### Theorems: visited-set and fetch-once discipline (crawl) -/

/-- The fetch log of a crawl stays duplicate-free, and every logged URL
is in the visited set (the mark precedes the GET). -/
theorem crawl_fetch_once (web : Url → FetchResult) (base : Url) (maxD : Nat) :
    ∀ fuel url depth s,
      s.fetchLog.Nodup → (∀ u ∈ s.fetchLog, u ∈ s.visited) →
      (crawl web base maxD fuel url depth s).fetchLog.Nodup ∧
      ∀ u ∈ (crawl web base maxD fuel url depth s).fetchLog,
        u ∈ (crawl web base maxD fuel url depth s).visited := by
  intro fuel url depth s hnd hsub
  refine crawl_preserve web base maxD
    (fun s => s.fetchLog.Nodup ∧ ∀ u ∈ s.fetchLog, u ∈ s.visited)
    (fun _ => True) ?_ ?_ ?_ fuel url depth s trivial ⟨hnd, hsub⟩
  · intro s u hp _ hvis
    have hu : u ∉ s.fetchLog := fun h => hvis (hp.2 u h)
    constructor
    · simp [List.nodup_append, hp.1, hu]
    · intro x hx
      rcases List.mem_append.mp hx with h | h
      · exact List.mem_append_left _ (hp.2 x h)
      · exact List.mem_append_right _ h
  · intro s c hp; exact hp
  · intro _ _; trivial

/-- Page A of the cyclic two-page site: A links to B, B links back to A. -/
def cycA : Url := ⟨"http", "cyc.test", "/A"⟩

/-- Page B of the cyclic two-page site. -/
def cycB : Url := ⟨"http", "cyc.test", "/B"⟩

/-- The cyclic two-page web: A and B link to each other. -/
def cycWeb (u : Url) : FetchResult :=
  if u = cycA then FetchResult.resp 200 "" [cycB]
  else if u = cycB then FetchResult.resp 200 "" [cycA]
  else FetchResult.resp 200 "" []

/-- Claim C7: every URL is fetched at most once per run — the fetch log
of any whole run is duplicate-free and only ever contains URLs whose
visited mark was set, for every web, even with cycles; on the concrete
cyclic site A and B are each fetched exactly once. -/
theorem c7_each_url_fetched_once :
    (∀ (web : Url → FetchResult) (base : Url) (maxD : Nat) (url : Url),
      (crawlTop web base maxD url).fetchLog.Nodup ∧
      ∀ u ∈ (crawlTop web base maxD url).fetchLog,
        u ∈ (crawlTop web base maxD url).visited) ∧
    (crawlTop cycWeb cycA 5 cycA).fetchLog = [cycA, cycB] ∧
    (crawlTop cycWeb cycA 5 cycA).visited = [cycA, cycB] := by
  refine ⟨?_, by decide, by decide⟩
  intro web base maxD url
  exact crawl_fetch_once web base maxD (maxD + 1) url 1 ⟨[], [], []⟩
    List.nodup_nil (by intro u hu; cases hu)

/-- Witness for c7_each_url_fetched_once on the cyclic site. -/
theorem c7_each_url_fetched_once_witness :
    cycA ∈ (crawlTop cycWeb cycA 5 cycA).visited :=
  (c7_each_url_fetched_once.1 cycWeb cycA 5 cycA).2 cycA (by decide)

/-! ### Theorems: origin filtering (crawl) -/

/-- The base URL of the scheme counterexample site (https). -/
def cexBase : Url := ⟨"https", "example.com", "/"⟩

/-- A link with the base's host but the http scheme. -/
def cexHttp : Url := ⟨"http", "example.com", "/x"⟩

/-- A web whose base page links to the same host under a different
scheme. -/
def cexWeb (u : Url) : FetchResult :=
  if u = cexBase then FetchResult.resp 200 "" [cexHttp]
  else FetchResult.resp 200 "" []

/-- Claim C2 counterexample: a link that differs from the base URL in
scheme (http vs https) but has the same host is crawled and does enter
the visited set, contradicting the claim that a link differing in either
component is never entered into it. -/
theorem c2_scheme_ignored_counterexample :
    cexHttp ∈ (crawlTop cexWeb cexBase 3 cexBase).visited ∧
    cexHttp.scheme ≠ cexBase.scheme ∧
    cexHttp.netloc = cexBase.netloc := by decide

/-- Claim C2, amended: the link filter compares only the host — every
URL a whole run ever visits is the start URL or has the base URL's
netloc, while the scheme is not consulted at all. -/
theorem c2_netloc_only_filtering (web : Url → FetchResult) (base : Url)
    (maxD : Nat) (start v : Url)
    (hv : v ∈ (crawlTop web base maxD start).visited) :
    v = start ∨ v.netloc = base.netloc := by
  have h := crawl_preserve web base maxD
    (fun s => ∀ x ∈ s.visited, x = start ∨ x.netloc = base.netloc)
    (fun u => u = start ∨ u.netloc = base.netloc)
    ?_ ?_ ?_ (maxD + 1) start 1 ⟨[], [], []⟩ (Or.inl rfl) ?_
  · exact h v hv
  · intro s u hp hqu _ x hx
    rcases List.mem_append.mp hx with h | h
    · exact hp x h
    · have : x = u := by simpa using h
      rw [this]; exact hqu
  · intro s c hp; exact hp
  · intro l hl; exact Or.inr hl
  · intro x hx; cases hx

/-- Witness for c2_netloc_only_filtering on the scheme counterexample
site. -/
theorem c2_netloc_only_filtering_witness :
    cexHttp = cexBase ∨ cexHttp.netloc = cexBase.netloc :=
  c2_netloc_only_filtering cexWeb cexBase 3 cexBase cexHttp (by decide)

end SiteTreeGen

namespace SiteTreeGen

/-! ### Theorems: fetch outcome handling (crawl) -/

/-- Base URL of the 204 counterexample site. -/
def b204 : Url := ⟨"http", "two.test", "/"⟩

/-- A child link of the 204 counterexample site. -/
def c204 : Url := ⟨"http", "two.test", "/child"⟩

/-- A web every page of which answers 204 No Content — a success (2xx)
status — with extractable content and an internal link. -/
def web204 : Url → FetchResult := fun _ => FetchResult.resp 204 "/stuff" [c204]

/-- Claim C3 counterexample: 204 is a 2xx success status and its body
contains the extractable path /stuff with an internal link, yet the run
extracts nothing and explores no child, because the code tests
status != 200, not non-2xx. -/
theorem c3_status_204_counterexample :
    (200 ≤ 204 ∧ 204 < 300) ∧
    extract_urls "/stuff" = ["/stuff"] ∧
    (crawlTop web204 b204 3 b204).directories = [] ∧
    c204 ∉ (crawlTop web204 b204 3 b204).visited := by decide

/-- Claim C3, amended: a transport error or any status other than
exactly 200 contributes nothing to the directory set and explores no
children (the state gains only the visited mark and fetch-log entry of
the URL itself); a status of exactly 200 gets its content extracted into
the directory set and each of its links with the base's netloc visited,
depth budget permitting. -/
theorem c3_exact_200_dichotomy (web : Url → FetchResult) (base : Url)
    (maxD fuel depth : Nat) (url : Url) (s : CrawlState)
    (hd : depth ≤ maxD) (hv : url ∉ s.visited) :
    (web url = FetchResult.err →
      crawl web base maxD (fuel + 2) url depth s =
        ⟨s.visited ++ [url], s.directories, s.fetchLog ++ [url]⟩) ∧
    (∀ status content links,
      web url = FetchResult.resp status content links → status ≠ 200 →
      crawl web base maxD (fuel + 2) url depth s =
        ⟨s.visited ++ [url], s.directories, s.fetchLog ++ [url]⟩) ∧
    (∀ content links, web url = FetchResult.resp 200 content links →
      (∀ x ∈ extract_urls content,
        x ∈ (crawl web base maxD (fuel + 2) url depth s).directories) ∧
      (depth + 1 ≤ maxD → ∀ l ∈ links, l.netloc = base.netloc →
        l ∈ (crawl web base maxD (fuel + 2) url depth s).visited)) := by
  refine ⟨?_, ?_, ?_⟩
  · intro hw
    simp only [crawl, if_neg (Nat.not_lt.mpr hd), if_neg hv, hw]
  · intro status content links hw hs
    simp only [crawl, if_neg (Nat.not_lt.mpr hd), if_neg hv, hw, if_pos hs]
  · intro content links hw
    simp only [crawl, if_neg (Nat.not_lt.mpr hd), if_neg hv, hw]
    rw [if_neg (by simp : ¬ (200 : Nat) ≠ 200)]
    constructor
    · intro x hx
      have hx2 : x ∈ (⟨s.visited ++ [url],
          dirUnion s.directories (extract_urls content),
          s.fetchLog ++ [url]⟩ : CrawlState).directories :=
        mem_dirUnion_right x (extract_urls content) s.directories hx
      by_cases hemp : (links.filter (fun l => l.netloc == base.netloc)).isEmpty
      · rw [if_pos hemp]; exact hx2
      · rw [if_neg hemp]
        exact crawl_foldl_mem_dirs web base maxD x (fuel + 1) (depth + 1) _ _ hx2
    · intro hd2 l hl hnet
      have hlf : l ∈ links.filter (fun l => l.netloc == base.netloc) :=
        List.mem_filter.mpr ⟨hl, by simp [hnet]⟩
      have hne : ¬ (links.filter (fun l => l.netloc == base.netloc)).isEmpty := by
        intro h
        rw [List.isEmpty_iff] at h
        rw [h] at hlf
        cases hlf
      rw [if_neg hne]
      exact crawl_foldl_visits web base maxD fuel (depth + 1) hd2 _ _ l hlf

/-- A one-page web answering 200 with extractable content. -/
def webOk : Url → FetchResult := fun _ => FetchResult.resp 200 "/contact-us" []

/-- Witness for c3_exact_200_dichotomy: on a 200 response the extracted
path lands in the directory set. -/
theorem c3_exact_200_dichotomy_witness :
    "/contact-us" ∈ (crawl webOk b204 3 4 b204 1 ⟨[], [], []⟩).directories :=
  ((c3_exact_200_dichotomy webOk b204 3 2 1 b204 ⟨[], [], []⟩ (by decide)
    (by decide)).2.2 "/contact-us" [] rfl).1 "/contact-us" (by decide)

end SiteTreeGen

namespace SiteTreeGen

/-! ### Theorems: depth ceiling (crawl) -/

/-- extract_urls finds nothing in the empty page. -/
theorem extract_urls_empty_page : extract_urls "" = [] := rfl

/-- Unioning nothing into the directory set changes nothing. -/
theorem dirUnion_nil (acc : List String) : dirUnion acc [] = acc := rfl

/-- The i-th URL of the linear chain site: same origin throughout,
pairwise-distinct paths. -/
def chainUrl (i : Nat) : Url :=
  ⟨"http", "chain.test", String.mk (List.replicate i 'a')⟩

/-- The linear chain site of length N: page i links to page i + 1 while
i + 1 < N, and the last page links nowhere. -/
def chainWeb (N : Nat) (u : Url) : FetchResult :=
  if u.path.length + 1 < N then
    FetchResult.resp 200 "" [chainUrl (u.path.length + 1)]
  else FetchResult.resp 200 "" []

/-- The chain URL's path length recovers its index. -/
theorem chainUrl_path_len (i : Nat) : (chainUrl i).path.length = i := by
  simp [chainUrl, String.length]

/-- Chain URLs are pairwise distinct. -/
theorem chainUrl_inj (i j : Nat) (h : chainUrl i = chainUrl j) : i = j := by
  have h2 := congrArg (fun u => u.path.length) h
  simpa [chainUrl_path_len] using h2

/-- The chain web's link structure, indexed. -/
theorem chainWeb_chainUrl (N i : Nat) (h : i + 1 < N) :
    chainWeb N (chainUrl i) = FetchResult.resp 200 "" [chainUrl (i + 1)] := by
  simp [chainWeb, chainUrl_path_len, h]

/-- Crawling the chain from page i at depth i + 1 with exactly the
remaining fuel visits pages i .. k - 1 and stops: the visited set ends as
the first k chain pages. -/
theorem crawl_chain_aux (N k : Nat) (hkN : k < N) :
    ∀ fuel i ds fl, i + 1 + fuel = k + 2 → i ≤ k →
      ∃ g, crawl (chainWeb N) (chainUrl 0) k fuel (chainUrl i) (i + 1)
          ⟨(List.range i).map chainUrl, ds, fl⟩
        = ⟨(List.range k).map chainUrl, ds, g⟩ := by
  intro fuel
  induction fuel with
  | zero => intro i ds fl hf hik; omega
  | succ fuel ih =>
    intro i ds fl hf hik
    rcases Nat.lt_or_ge i k with hik2 | hik2
    · have hdep : ¬ (i + 1 > k) := by omega
      have hnv : chainUrl i ∉ (List.range i).map chainUrl := by
        intro h
        rcases List.mem_map.mp h with ⟨j, hj, hji⟩
        have hj2 := chainUrl_inj j i hji
        rw [List.mem_range] at hj
        omega
      have hw : chainWeb N (chainUrl i) = FetchResult.resp 200 "" [chainUrl (i + 1)] :=
        chainWeb_chainUrl N i (by omega)
      simp only [crawl, if_neg hdep, if_neg hnv, hw]
      rw [if_neg (by simp : ¬ (200 : Nat) ≠ 200)]
      have hfil : List.filter (fun l => l.netloc == (chainUrl 0).netloc)
          [chainUrl (i + 1)] = [chainUrl (i + 1)] := rfl
      rw [hfil]
      rw [if_neg (by simp : ¬ ([chainUrl (i + 1)].isEmpty = true))]
      rw [List.foldl_cons, List.foldl_nil]
      have hvis : (List.range i).map chainUrl ++ [chainUrl i]
          = (List.range (i + 1)).map chainUrl := by
        rw [List.range_succ, List.map_append]
        rfl
      rw [extract_urls_empty_page, dirUnion_nil, hvis]
      exact ih (i + 1) ds (fl ++ [chainUrl i]) (by omega) (by omega)
    · have hieq : i = k := by omega
      subst hieq
      refine ⟨fl, ?_⟩
      simp only [crawl, if_pos (by omega : i + 1 > i)]

/-- Claim C6: the depth ceiling is inclusive and exact — on the linear
chain site of length N, a whole run with max_depth = k < N ends with the
visited set equal to the first k chain pages, so its size is exactly k;
the page at depth k is still fetched, and its child is pruned by the
depth > max_depth check before being marked visited. -/
theorem c6_depth_ceiling_chain (N k : Nat) (hkN : k < N) :
    (crawlTop (chainWeb N) (chainUrl 0) k (chainUrl 0)).visited
      = (List.range k).map chainUrl ∧
    (crawlTop (chainWeb N) (chainUrl 0) k (chainUrl 0)).visited.length = k := by
  rcases crawl_chain_aux N k hkN (k + 1) 0 [] [] (by omega) (by omega) with ⟨g, hg⟩
  have hg2 : crawlTop (chainWeb N) (chainUrl 0) k (chainUrl 0)
      = ⟨(List.range k).map chainUrl, [], g⟩ := by
    rw [crawlTop]
    simpa using hg
  rw [hg2]
  exact ⟨rfl, by simp⟩

/-- Witness for c6_depth_ceiling_chain: chain of length 3, ceiling 2. -/
theorem c6_depth_ceiling_chain_witness :
    2 < 3 ∧ (crawlTop (chainWeb 3) (chainUrl 0) 2 (chainUrl 0)).visited.length = 2 :=
  ⟨by decide, (c6_depth_ceiling_chain 3 2 (by decide)).2⟩

end SiteTreeGen

namespace SiteTreeGen

/-! ### Theorems: shape of extractor output -/

/-- No two consecutive slashes anywhere in the list. -/
def noDbl : List Char → Bool
  | [] => true
  | [_] => true
  | a :: b :: t => !(a == '/' && b == '/') && noDbl (b :: t)

/-- Shape of a nonempty greedy body match: nonempty word-character runs
separated by single slashes, with an optional trailing slash. -/
inductive BodyForm : List Char → Prop
  | last (w : List Char) (hne : w ≠ []) (hw : ∀ c ∈ w, isWordChar c = true) :
      BodyForm w
  | lastSlash (w : List Char) (hne : w ≠ [])
      (hw : ∀ c ∈ w, isWordChar c = true) : BodyForm (w ++ ['/'])
  | cons (w more : List Char) (hne : w ≠ [])
      (hw : ∀ c ∈ w, isWordChar c = true) (hm : BodyForm more) :
      BodyForm (w ++ '/' :: more)

/-- A word character is not a slash. -/
theorem isWordChar_ne_slash {c : Char} (h : isWordChar c = true) : c ≠ '/' := by
  intro hc
  rw [hc] at h
  exact absurd h (by decide)

/-- Every nonempty output of the greedy body matcher has the BodyForm
shape. -/
theorem matchBody_form : ∀ fuel cs,
    matchBody fuel cs = [] ∨ BodyForm (matchBody fuel cs) := by
  intro fuel
  induction fuel with
  | zero => intro cs; left; rfl
  | succ fuel ih =>
    intro cs
    simp only [matchBody]
    by_cases hw : (cs.takeWhile isWordChar).isEmpty
    · rw [if_pos hw]; left; rfl
    rw [if_neg hw]
    have hne : cs.takeWhile isWordChar ≠ [] := by
      intro h
      rw [h] at hw
      exact hw rfl
    have hall : ∀ c ∈ cs.takeWhile isWordChar, isWordChar c = true :=
      fun c hc => List.mem_takeWhile_imp hc
    split
    · rename_i rest2 heq
      by_cases hm : (matchBody fuel rest2).isEmpty
      · rw [if_pos hm]
        right
        exact BodyForm.lastSlash _ hne hall
      · rw [if_neg hm]
        right
        refine BodyForm.cons _ _ hne hall ?_
        rcases ih rest2 with h | h
        · exact absurd (by rw [h]; rfl) hm
        · exact h
    · right
      exact BodyForm.last _ hne hall

/-- Every candidate emitted by the scanner is a slash followed by a
BodyForm body. -/
theorem findAll_mem : ∀ fuel cs l, l ∈ findAll fuel cs →
    ∃ b, l = '/' :: b ∧ BodyForm b := by
  intro fuel
  induction fuel with
  | zero => intro cs l h; simp [findAll] at h
  | succ fuel ih =>
    intro cs l h
    cases cs with
    | nil => simp [findAll] at h
    | cons c cs =>
      by_cases hc : c = '/'
      · simp only [findAll, if_pos hc] at h
        by_cases hb : (matchBody cs.length cs).isEmpty
        · rw [if_pos hb] at h
          exact ih cs l h
        · rw [if_neg hb] at h
          rcases List.mem_cons.mp h with h | h
          · refine ⟨matchBody cs.length cs, h, ?_⟩
            rcases matchBody_form cs.length cs with h2 | h2
            · exact absurd (by rw [h2]; rfl) hb
            · exact h2
          · exact ih _ l h
      · simp only [findAll, if_neg hc] at h
        exact ih cs l h

/-- Prefixing a non-slash character does not affect noDbl. -/
theorem noDbl_cons_of_ne {a : Char} (ha : a ≠ '/') (l : List Char) :
    noDbl (a :: l) = noDbl l := by
  cases l with
  | nil => rfl
  | cons b t =>
    show (!(a == '/' && b == '/') && noDbl (b :: t)) = noDbl (b :: t)
    have h1 : (a == '/') = false := by simp [ha]
    rw [h1]
    simp

/-- Prefixing a word run does not affect noDbl. -/
theorem noDbl_word_append : ∀ (w : List Char),
    (∀ c ∈ w, isWordChar c = true) → ∀ r, noDbl (w ++ r) = noDbl r := by
  intro w
  induction w with
  | nil => intro _ r; rfl
  | cons a w ih =>
    intro hw r
    rw [List.cons_append,
      noDbl_cons_of_ne (isWordChar_ne_slash (hw a (List.mem_cons_self a w)))]
    exact ih (fun c hc => hw c (List.mem_cons_of_mem a hc)) r

/-- A BodyForm body starts with a word character. -/
theorem BodyForm.head_word : ∀ {b}, BodyForm b →
    ∃ c t, b = c :: t ∧ isWordChar c = true := by
  intro b hb
  induction hb with
  | last w hne hw =>
    cases w with
    | nil => exact absurd rfl hne
    | cons c t => exact ⟨c, t, rfl, hw c (List.mem_cons_self c t)⟩
  | lastSlash w hne hw =>
    cases w with
    | nil => exact absurd rfl hne
    | cons c t => exact ⟨c, t ++ ['/'], by simp, hw c (List.mem_cons_self c t)⟩
  | cons w more hne hw hm ih =>
    cases w with
    | nil => exact absurd rfl hne
    | cons c t => exact ⟨c, t ++ '/' :: more, by simp, hw c (List.mem_cons_self c t)⟩

/-- A BodyForm body has no two consecutive slashes. -/
theorem BodyForm.noDbl_true : ∀ {b}, BodyForm b → noDbl b = true := by
  intro b hb
  induction hb with
  | last w hne hw =>
    rw [← List.append_nil w, noDbl_word_append w hw]
    rfl
  | lastSlash w hne hw =>
    rw [noDbl_word_append w hw]
    rfl
  | cons w more hne hw hm ih =>
    rw [noDbl_word_append w hw]
    rcases hm.head_word with ⟨c, t, hct, hc⟩
    have h1 : (c == '/') = false := by simp [isWordChar_ne_slash hc]
    rw [hct]
    show (!('/' == '/' && c == '/') && noDbl (c :: t)) = true
    rw [h1]
    simp only [Bool.and_false, Bool.not_false, Bool.true_and]
    rw [← hct]
    exact ih

/-- A whole candidate — slash then BodyForm body — has no two
consecutive slashes. -/
theorem noDbl_slash_body {b : List Char} (hb : BodyForm b) :
    noDbl ('/' :: b) = true := by
  rcases hb.head_word with ⟨c, t, hct, hc⟩
  have h1 : (c == '/') = false := by simp [isWordChar_ne_slash hc]
  rw [hct]
  show (!('/' == '/' && c == '/') && noDbl (c :: t)) = true
  rw [h1]
  simp only [Bool.and_false, Bool.not_false, Bool.true_and]
  rw [← hct]
  exact hb.noDbl_true

end SiteTreeGen

namespace SiteTreeGen

/-- Splitting a slash-free list yields the single chunk itself. -/
theorem splitSlash_no_slash : ∀ (l : List Char), (∀ c ∈ l, c ≠ '/') →
    splitSlash l = [l] := by
  intro l
  induction l with
  | nil => intro _; rfl
  | cons c cs ih =>
    intro h
    simp only [splitSlash]
    rw [if_neg (h c (List.mem_cons_self c cs))]
    rw [ih (fun x hx => h x (List.mem_cons_of_mem c hx))]

/-- Splitting a slash-free chunk, a slash, and a rest puts the chunk
first. -/
theorem splitSlash_word_append : ∀ (w : List Char), (∀ c ∈ w, c ≠ '/') →
    ∀ r, splitSlash (w ++ '/' :: r) = w :: splitSlash r := by
  intro w
  induction w with
  | nil =>
    intro _ r
    show splitSlash ('/' :: r) = [] :: splitSlash r
    simp [splitSlash]
  | cons a w ih =>
    intro h r
    rw [List.cons_append]
    simp only [splitSlash]
    rw [if_neg (h a (List.mem_cons_self a w))]
    rw [ih (fun x hx => h x (List.mem_cons_of_mem a hx)) r]

/-- Dropping leading slashes from the reverse of a slash-free list does
nothing. -/
theorem dropWhile_slash_reverse_word (w : List Char) (hw : ∀ c ∈ w, c ≠ '/') :
    w.reverse.dropWhile (fun c => c == '/') = w.reverse := by
  cases hrev : w.reverse with
  | nil => rfl
  | cons c t =>
    have hc : c ≠ '/' := by
      apply hw
      rw [← List.mem_reverse, hrev]
      exact List.mem_cons_self c t
    rw [List.dropWhile_cons_of_neg (by simp [hc])]

/-- Trailing-slash stripping leaves a slash-free list unchanged. -/
theorem stripTrail_word (w : List Char) (hw : ∀ c ∈ w, c ≠ '/') :
    stripTrail w = w := by
  rw [stripTrail, dropWhile_slash_reverse_word w hw, List.reverse_reverse]

/-- Trailing-slash stripping removes a single trailing slash after a
slash-free list. -/
theorem stripTrail_word_slash (w : List Char) (hw : ∀ c ∈ w, c ≠ '/') :
    stripTrail (w ++ ['/']) = w := by
  rw [stripTrail]
  have h1 : (w ++ ['/']).reverse = '/' :: w.reverse := by simp
  rw [h1, List.dropWhile_cons_of_pos (by simp),
    dropWhile_slash_reverse_word w hw, List.reverse_reverse]

/-- Trailing-slash stripping only touches the last chunk. -/
theorem stripTrail_cons (w more : List Char)
    (hmore : stripTrail more ≠ []) :
    stripTrail (w ++ '/' :: more) = w ++ '/' :: stripTrail more := by
  have h1 : (w ++ '/' :: more).reverse = more.reverse ++ ('/' :: w.reverse) := by
    simp
  have h2 : more.reverse.dropWhile (fun c => c == '/') ≠ [] := by
    intro h
    apply hmore
    rw [stripTrail, h]
    rfl
  rw [stripTrail, h1, List.dropWhile_append,
    if_neg (by simpa [List.isEmpty_iff] using h2)]
  rw [stripTrail]
  simp

/-- After stripping its trailing slashes, a BodyForm body is nonempty
and splits into only nonempty chunks. -/
theorem BodyForm.segments : ∀ {b}, BodyForm b →
    stripTrail b ≠ [] ∧
    (splitSlash (stripTrail b)).all (fun s => !s.isEmpty) = true := by
  intro b hb
  induction hb with
  | last w hne hw =>
    have hw2 : ∀ c ∈ w, c ≠ '/' := fun c hc => isWordChar_ne_slash (hw c hc)
    rw [stripTrail_word w hw2, splitSlash_no_slash w hw2]
    refine ⟨hne, ?_⟩
    simp [List.isEmpty_iff, hne]
  | lastSlash w hne hw =>
    have hw2 : ∀ c ∈ w, c ≠ '/' := fun c hc => isWordChar_ne_slash (hw c hc)
    rw [stripTrail_word_slash w hw2, splitSlash_no_slash w hw2]
    refine ⟨hne, ?_⟩
    simp [List.isEmpty_iff, hne]
  | cons w more hne hw hm ih =>
    have hw2 : ∀ c ∈ w, c ≠ '/' := fun c hc => isWordChar_ne_slash (hw c hc)
    rw [stripTrail_cons w more ih.1]
    constructor
    · intro h
      rcases List.append_eq_nil.mp h with ⟨h1, h2⟩
      exact hne h1
    · rw [splitSlash_word_append w hw2 (stripTrail more), List.all_cons]
      have h1 : (!w.isEmpty) = true := by simp [List.isEmpty_iff, hne]
      rw [h1, ih.2]
      rfl

/-- Candidate stripping reduces to trailing-slash stripping of the
body. -/
theorem stripSlash_slash_body {b : List Char} (hb : BodyForm b) :
    stripSlash ('/' :: b) = stripTrail b := by
  rw [stripSlash]
  have h1 : ('/' :: b).dropWhile (fun c => c == '/')
      = b.dropWhile (fun c => c == '/') :=
    List.dropWhile_cons_of_pos (by simp)
  rcases hb.head_word with ⟨c, t, hct, hc⟩
  rw [h1, hct, List.dropWhile_cons_of_neg (by simp [isWordChar_ne_slash hc]),
    ← hct]

/-- Claim C10: every candidate returned by the extractor begins with a
slash, never contains two consecutive slashes, and after trimming
leading and trailing slashes splits into only nonempty segments — so the
extractor always feeds the tree builder well-formed segment sequences. -/
theorem c10_extractor_output_wellformed (text u : String)
    (hu : u ∈ extract_urls text) :
    u.data.head? = some '/' ∧
    noDbl u.data = true ∧
    (splitSlash (stripSlash u.data)).all (fun s => !s.isEmpty) = true := by
  rw [extract_urls] at hu
  rcases List.mem_map.mp hu with ⟨l, hl, rfl⟩
  have hfa : l ∈ findAll text.data.length text.data := (List.mem_filter.mp hl).1
  rcases findAll_mem text.data.length text.data l hfa with ⟨b, rfl, hb⟩
  refine ⟨rfl, noDbl_slash_body hb, ?_⟩
  show (splitSlash (stripSlash ('/' :: b))).all (fun s => !s.isEmpty) = true
  rw [stripSlash_slash_body hb]
  exact hb.segments.2

/-- Witness for c10_extractor_output_wellformed at a concrete input. -/
theorem c10_extractor_output_wellformed_witness :
    ("/ab" : String).data.head? = some '/' ∧
    noDbl ("/ab" : String).data = true ∧
    (splitSlash (stripSlash ("/ab" : String).data)).all
      (fun s => !s.isEmpty) = true :=
  c10_extractor_output_wellformed "/ab" "/ab" (by decide)

end SiteTreeGen
